import Mathlib

/-!
Verification development for the matminer composition-descriptor engine
(`matminer/descriptors/composition_features.py`,
`matminer/utils/flatten_dict.py`, `matminer/featurizers/utils/oxidation.py`).

The Python code is shallowly embedded: a pymatgen `Composition`
(more precisely the `get_el_amt_dict()` view every descriptor starts from)
is an association list from element symbols to rational amounts, external
lookup collaborators (Magpie tables, pymatgen Element attributes) are
function parameters, Python floats are modelled as rationals where no real
roots or exponentials occur and as reals otherwise, and fallible Python code
(raised exceptions) returns `Except`/`Option`.
-/

namespace Matminer

/-- The `get_el_amt_dict()` view of a pymatgen Composition: an ordered
mapping from element symbol to amount.  Iteration order of the Python dict
is its insertion order, i.e. the list order here. -/
abbrev Comp := List (String × ℚ)

/-- Total number of atoms: `sum(el_amt.values())`. -/
def totalAtoms (c : Comp) : ℚ := (c.map (fun e => e.2)).sum

/-- Amount of one element in the composition (0 if absent). -/
def amountOf (c : Comp) (el : String) : ℚ :=
  ((c.filter (fun e => e.1 = el)).map (fun e => e.2)).sum

/-- pymatgen `Composition.get_atomic_fraction(el)`: amount divided by the
total number of atoms. -/
def atomicFraction (c : Comp) (el : String) : ℚ :=
  amountOf c el / totalAtoms c

/-- Python `int(x)` applied to a non-negative float amount, as used by
`range(int(el_amt[el]))`: truncation.  For amounts below 1 the resulting
replication count is 0, matching `range` on a non-positive argument. -/
def pyInt (q : ℚ) : ℕ := q.floor.toNat

/-! ### get_magpie_descriptor (composition_features.py, lines 72-122)

The on-disk Magpie table for a property is abstracted into a lookup
function `value : String → ℚ` standing for `float(lines[Element(el).Z - 1])`,
and the catalog scan of the data directory into the list `catalog` of
available property names; the README unit extraction does not affect the
returned list and is omitted. -/

/-- Embedding of `get_magpie_descriptor`: raise (`Except.error`) when the
descriptor name is not among the available properties, otherwise for each
element of the composition append its tabulated value once per atom
(`for i in range(int(el_amt[el])): magpiedata.append(...)`). -/
def get_magpie_descriptor (catalog : List String) (value : String → ℚ)
    (comp : Comp) (descriptor_name : String) : Except String (List ℚ) :=
  if descriptor_name ∈ catalog then
    Except.ok (comp.foldl
      (fun magpiedata e => magpiedata ++ List.replicate (pyInt e.2) (value e.1)) [])
  else
    Except.error "This descriptor is not available from the Magpie repository."

/-- The specification view of the per-atom expansion: each element
contributes its value repeated `floor(amount)` times, concatenated in
composition iteration order. -/
def expandPerAtom (value : String → ℚ) (comp : Comp) : List ℚ :=
  comp.flatMap (fun e => List.replicate (pyInt e.2) (value e.1))

/-! ### get_frac_weighted_mean (composition_features.py, lines 249-253)

The function body builds `el_amt = Composition(comp).get_el_amt_dict()` and
returns it immediately; the `data_lst` argument is never used and no
weighted mean is computed. -/

/-- Embedding of `get_frac_weighted_mean`: returns the element-amount
dictionary itself, ignoring `data_lst`. -/
def get_frac_weighted_mean (comp : Comp) (_data_lst : String → ℚ) : Comp :=
  comp

/-- The fraction-weighted mean the specification describes:
`sum(atomic_fraction(e) * per_element_values[e] for e in composition)`. -/
def specFracWeightedMean (comp : Comp) (data_lst : String → ℚ) : ℚ :=
  (comp.map (fun e => atomicFraction comp e.1 * data_lst e.1)).sum

/-! ### get_pymatgen_descriptor (composition_features.py, lines 25-69)

The pymatgen `Element` attribute source is a parameter
`attr : String → String → Option (Option ℚ)`:
`attr el prop = none` means the `Element` object has no such attribute at
all (Python `getattr` raises `AttributeError`), `some none` means the
attribute exists but its value is `None`, `some (some v)` a defined value.
The unit source (`.unit` on the attribute value) is a total collaborator
`unitOf`.  Note that the guard
`if callable(getattr(Element(el), prop)) is None` on line 44 can never
fire, since `callable` returns a bool which `is` never `None`; a missing
attribute instead raises `AttributeError` out of `getattr` itself.  Both
facts are reflected below: the first `getattr` evaluation is the only
failure point and the explicit `ValueError` branch is absent because it is
unreachable. -/

/-- One entry of `eldata_tup_lst`: the named tuple
`(element, propname, propvalue, propunit, amt)`. -/
structure ElDataTup where
  element : String
  propname : String
  propvalue : Option ℚ
  propunit : Option String
  amt : ℚ
deriving Repr, DecidableEq

/-- Attributes for which the code hardcodes `units = None` (line 51). -/
def unitlessProps : List String :=
  ["X", "Z", "ionic_radii", "group", "row", "number", "mendeleev_no"]

/-- The loop body of `get_pymatgen_descriptor`, returning both accumulators
`(eldata_tup_lst, eldata)`; the Python function returns only `eldata`, see
the wrapper below. -/
def gpdLoop (attr : String → String → Option (Option ℚ))
    (unitOf : String → String → Option String) (prop : String) :
    Comp → Except String (List ElDataTup × List ℚ)
  | [] => Except.ok ([], [])
  | (el, amt) :: rest =>
    match attr el prop with
    | none => Except.error "AttributeError"
    | some (some v) =>
        let units := if prop ∈ unitlessProps then none else unitOf el prop
        match gpdLoop attr unitOf prop rest with
        | Except.error e => Except.error e
        | Except.ok (tups, eldata) =>
            Except.ok (⟨el, prop, some v, units, amt⟩ :: tups,
              List.replicate (pyInt amt) v ++ eldata)
    | some none =>
        match gpdLoop attr unitOf prop rest with
        | Except.error e => Except.error e
        | Except.ok (tups, eldata) =>
            Except.ok (⟨el, prop, none, none, amt⟩ :: tups, eldata)

/-- Embedding of `get_pymatgen_descriptor`: the per-atom value list
(`eldata`), with exceptions propagated. -/
def get_pymatgen_descriptor (attr : String → String → Option (Option ℚ))
    (unitOf : String → String → Option String) (comp : Comp)
    (prop : String) : Except String (List ℚ) :=
  (gpdLoop attr unitOf prop comp).map (fun r => r.2)

/-! ### get_valence_orbital_attributes (composition_features.py, 255-286)

Each `get_magpie_descriptor(f, name)[0]` call on a bare element symbol
returns the single tabulated value for that element, abstracted into
`tab name el`.  The loop accumulates five fraction-weighted sums in one
pass; the four divisions by `avg_total_valence` raise `ZeroDivisionError`
when the weighted total valence is zero. -/

/-- One iteration of the accumulation loop over the state
`(avg_total_valence, avg_s, avg_p, avg_d, avg_f)`. -/
def valenceStep (comp : Comp) (tab : String → String → ℚ)
    (acc : ℚ × ℚ × ℚ × ℚ × ℚ) (e : String × ℚ) : ℚ × ℚ × ℚ × ℚ × ℚ :=
  let el_frac := atomicFraction comp e.1
  (acc.1 + el_frac * tab "NValance" e.1,
   acc.2.1 + el_frac * tab "NsValence" e.1,
   acc.2.2.1 + el_frac * tab "NpValence" e.1,
   acc.2.2.2.1 + el_frac * tab "NdValence" e.1,
   acc.2.2.2.2 + el_frac * tab "NfValence" e.1)

/-- State of the accumulation loop after the `for f in elements` pass. -/
def valenceSums (comp : Comp) (tab : String → String → ℚ) :
    ℚ × ℚ × ℚ × ℚ × ℚ :=
  comp.foldl (valenceStep comp tab) (0, 0, 0, 0, 0)

/-- Embedding of `get_valence_orbital_attributes`: the quadruple
`(Fs, Fp, Fd, Ff)`, or an error when the division denominator
`avg_total_valence` is zero. -/
def get_valence_orbital_attributes (comp : Comp)
    (tab : String → String → ℚ) : Except String (ℚ × ℚ × ℚ × ℚ) :=
  let s := valenceSums comp tab
  if s.1 = 0 then Except.error "ZeroDivisionError"
  else Except.ok (s.2.1 / s.1, s.2.2.1 / s.1, s.2.2.2.1 / s.1, s.2.2.2.2 / s.1)

/-- The fraction-weighted total valence electron count as the specification
describes it: a sum over the elements of the composition. -/
def specWeightedTotalValence (comp : Comp) (tab : String → String → ℚ) : ℚ :=
  (comp.map (fun e => atomicFraction comp e.1 * tab "NValance" e.1)).sum

/-! ### get_ionic_attributes (composition_features.py, lines 288-313)

`itertools.combinations(elements, 2)` over the dict key order;
electronegativities come from `get_magpie_descriptor(el,
"Electronegativity")`, a length-one list for a bare element symbol,
abstracted into `en : String → ℝ`.  `np.max` of the empty `ionic_char`
list raises `ValueError`, modelled as `Option.none` (for a single-element
composition the subsequent `avg_ionic_char[0]` on the unchanged `int 0`
would also raise `TypeError`, but `np.max` fails first). -/

/-- Ordered pairs produced by `itertools.combinations(xs, 2)`. -/
def combinations2 {α : Type} : List α → List (α × α)
  | [] => []
  | x :: xs => xs.map (fun y => (x, y)) ++ combinations2 xs

/-- Numpy `np.max` over a list: fails on an empty input. -/
def npMax (l : List ℝ) : Option ℝ :=
  match l with
  | [] => none
  | x :: xs => some (xs.foldl max x)

/-- The per-pair ionic character `1 - exp(-0.25 * (XA - XB) ** 2)`. -/
noncomputable def ionicCharacter (en : String → ℝ) (p : String × String) : ℝ :=
  1 - Real.exp (-(0.25) * (en p.1 - en p.2) ^ 2)

/-- Embedding of `get_ionic_attributes`: the pair
`(max_ionic_char, avg_ionic_char)`, or `none` when the empty-list `np.max`
reduction raises. -/
noncomputable def get_ionic_attributes (comp : Comp) (en : String → ℝ) :
    Option (ℝ × ℝ) :=
  let elements := comp.map (fun e => e.1)
  let atom_pairs := combinations2 elements
  let ionic_char := atom_pairs.map (fun p => ionicCharacter en p)
  let avg_ionic_char := (atom_pairs.map (fun p =>
    (atomicFraction comp p.1 : ℝ) * (atomicFraction comp p.2 : ℝ) *
      ionicCharacter en p)).sum
  match npMax ionic_char with
  | none => none
  | some m => some (m, avg_ionic_char)

/-! ### the mode statistic of get_elem_property_attributes
(composition_features.py, line 244)

The statistic is `max(set(data_lst), key=data_lst.count)`.  CPython
iterates a `set` in hash-table slot order: a freshly built small set uses
an 8-slot table, `hash(x) = int(x)` for an integral float, and an element
lands in slot `hash(x) & 7` — so `list(set([11.0, 17.0]))` is
`[17.0, 11.0]`, not ascending.  `pySet` models this order: the distinct
values arranged by slot index.  The model is exact for at most five
distinct non-negative integral values (no table resize) whose slots are
pairwise distinct (no collision, hence no probing); outside that scope it
fixes one deterministic convention, and no theorem below depends on the
iteration order except at the modelled concrete inputs.  `pyMaxKey`
models Python `max(..., key=k)`: it scans left to right and replaces the
current best only on a strictly larger key, so the first maximiser in
iteration order wins. -/

/-- Distinct values of a list, keeping the first occurrence of each, in
scan order. -/
def scanDedup : List ℚ → List ℚ
  | [] => []
  | x :: xs => x :: (scanDedup xs).filter (fun y => y ≠ x)

/-- The hash-table slot of a small non-negative integral value in the
initial 8-slot CPython set table: `hash(x) & 7` with `hash(x) = int(x)`. -/
def pySlot (q : ℚ) : ℕ := q.floor.toNat % 8

/-- Insertion of one value into the slot-ordered iteration sequence. -/
def slotInsert (x : ℚ) : List ℚ → List ℚ
  | [] => [x]
  | y :: ys =>
      if pySlot x < pySlot y then x :: y :: ys else y :: slotInsert x ys

/-- Model of CPython `set(data_lst)` iteration: the distinct values in
hash-table slot order (see the section comment for the exact scope of the
model). -/
def pySet (l : List ℚ) : List ℚ := (scanDedup l).foldr slotInsert []

/-- One comparison step of Python `max(items, key=key)`: the current best
`b` is replaced only when the candidate has a strictly larger key, so the
first maximiser in iteration order wins. -/
def pickMax (key : ℚ → ℕ) (b a : ℚ) : ℚ := if key b < key a then a else b

/-- Python `max(items, key=key)`: raises (`none`) on an empty input. -/
def pyMaxKey (key : ℚ → ℕ) : List ℚ → Option ℚ
  | [] => none
  | x :: xs => some (xs.foldl (pickMax key) x)

/-- Embedding of the mode statistic on line 244:
`max(set(data_lst), key=data_lst.count)`. -/
def summaryMode (data_lst : List ℚ) : Option ℚ :=
  pyMaxKey (fun v => data_lst.count v) (pySet data_lst)

/-- The mode as the specification words it: most frequent value, ties
broken by the value encountered first during a stable scan of the
sequence. -/
def specStableScanMode (data_lst : List ℚ) : Option ℚ :=
  pyMaxKey (fun v => data_lst.count v) (scanDedup data_lst)

/-! ### get_holder_mean (composition_features.py, lines 176-198)

Values and the power are reals (`x ^ (y : ℝ)` is `Real.rpow`).
`reduce(lambda x, y: x * y, n)` folds the list from its head with no
initial element and raises `TypeError` on an empty list, so `geomean`
returns `none` there; for `power != 0` an empty list raises
`ZeroDivisionError` at `total / len(data_lst)`. -/

/-- The inner `geomean` lambda:
`reduce(lambda x, y: x * y, n) ** (1.0 / len(n))`. -/
noncomputable def geomean (n : List ℝ) : Option ℝ :=
  match n with
  | [] => none
  | x :: xs => some ((xs.foldl (fun a b => a * b) x) ^ ((1 : ℝ) / n.length))

/-- Embedding of `get_holder_mean`. -/
noncomputable def get_holder_mean (data_lst : List ℝ) (power : ℝ) :
    Option ℝ :=
  if power = 0 then geomean data_lst
  else
    match data_lst with
    | [] => none
    | _ =>
      some ((data_lst.foldl (fun total value => total + value ^ power) 0
        / data_lst.length) ^ ((1 : ℝ) / power))

/-! ### get_stoich_attributes (composition_features.py, lines 201-225)

Amounts are the rational amounts of the composition, cast to reals for the
`** p` power.  A composition satisfying the Composition invariant (at
least one element, positive amounts) has `n_atoms > 0`, so the division is
well defined on every input the theorems consider. -/

/-- Embedding of `get_stoich_attributes`. -/
noncomputable def get_stoich_attributes (comp : Comp) (p : ℝ) : ℝ :=
  let n_atoms : ℚ := totalAtoms comp
  if p = 0 then (n_atoms : ℝ)
  else
    (comp.foldl
      (fun p_norm e => p_norm + ((e.2 / n_atoms : ℚ) : ℝ) ^ p) 0)
      ^ ((1 : ℝ) / p)

/-! ### flatten_dict (flatten_dict.py)

Python values are an inductive type: primitives (`leaf`), dictionaries
with string keys in insertion order, and lists/tuples (`arr`).  A Python
dict is an association list with distinct keys iterated in insertion
order; `flattened[k] = v` overwrites in place when `k` is present and
appends otherwise (`dSet`), and both `|=` and `.update` fold `dSet` over
the right operand (`dMerge`).  The recursive calls in the source build a
fresh `flattened = ` empty dict, then the caller merges the result, which
is what `flattenStep` does; `dict(enumerate(value))` is traversed directly
by `flattenArrGo` with the integer keys rendered into the dotted key.  The
falsy test `if lead_key` is modelled by `Option String` with `none` for
the `None` default. -/

inductive PyVal where
  | leaf : ℚ → PyVal
  | dict : List (String × PyVal) → PyVal
  | arr : List PyVal → PyVal
deriving Repr

/-- Python `isinstance(value, dict)`. -/
def PyVal.isDict : PyVal → Bool
  | .dict _ => true
  | _ => false

/-- Dict item assignment `d[k] = v`: overwrite in place or append. -/
def dSet (d : List (String × PyVal)) (k : String) (v : PyVal) :
    List (String × PyVal) :=
  if d.any (fun p => p.1 = k) then
    d.map (fun p => if p.1 = k then (k, v) else p)
  else d ++ [(k, v)]

/-- Dict merge `d |= e` / `d.update(e)`. -/
def dMerge (d e : List (String × PyVal)) : List (String × PyVal) :=
  e.foldl (fun acc p => dSet acc p.1 p.2) d

/-- The key renaming `flat_key = lead_key.key if lead_key else key`. -/
def flatKey (lead_key : Option String) (key : String) : String :=
  match lead_key with
  | none => key
  | some l => l ++ "." ++ key

mutual

/-- The `for key, value in nested_dict.items()` loop of `flatten_dict`,
carrying the `flattened` accumulator. -/
def flattenDictGo (acc : List (String × PyVal))
    (nested_dict : List (String × PyVal)) (lead_key : Option String)
    (unwind_arrays : Bool) : List (String × PyVal) :=
  match nested_dict with
  | [] => acc
  | (key, value) :: rest =>
      flattenDictGo (flattenStep acc (flatKey lead_key key) value
        unwind_arrays) rest lead_key unwind_arrays

/-- One iteration of the loop body: dispatch on the value. -/
def flattenStep (acc : List (String × PyVal)) (flat_key : String)
    (value : PyVal) (unwind_arrays : Bool) : List (String × PyVal) :=
  match value with
  | .dict d => dMerge acc (flattenDictGo [] d (some flat_key) unwind_arrays)
  | .arr l =>
      if unwind_arrays then
        dMerge acc (flattenArrGo [] flat_key 0 l unwind_arrays)
      else dSet acc flat_key (.arr l)
  | .leaf q => dSet acc flat_key (.leaf q)

/-- The recursive call on `dict(enumerate(value))`: the same loop with
numeric keys `lead.0, lead.1, ...`. -/
def flattenArrGo (acc : List (String × PyVal)) (lead : String) (i : ℕ)
    (l : List PyVal) (unwind_arrays : Bool) : List (String × PyVal) :=
  match l with
  | [] => acc
  | v :: rest =>
      flattenArrGo (flattenStep acc (lead ++ "." ++ toString i) v
        unwind_arrays) lead (i + 1) rest unwind_arrays

end

/-- Embedding of `flatten_dict`: starts from the empty `flattened`. -/
def flatten_dict (nested_dict : List (String × PyVal))
    (lead_key : Option String) (unwind_arrays : Bool) :
    List (String × PyVal) :=
  flattenDictGo [] nested_dict lead_key unwind_arrays

/-! ### has_oxidation_states (oxidation.py)

An element/species object either lacks the `oxi_state` attribute
(`oxi_state = none`, Python `hasattr` false), has it set to `None`
(`some none`), or has a numeric value (`some (some v)`). -/

structure PmgSpecies where
  oxi_state : Option (Option ℚ)
deriving Repr, DecidableEq

structure PmgComposition where
  elements : List PmgSpecies
deriving Repr, DecidableEq

/-- Embedding of `has_oxidation_states`:
`not any(not hasattr(el, ...) or el.oxi_state is None for el in
comp.elements)`, with the short-circuit of `or` reflected in the match
(the attribute is only read when it exists). -/
def has_oxidation_states (comp : PmgComposition) : Bool :=
  !(comp.elements.any (fun el =>
      match el.oxi_state with
      | none => true
      | some v => v.isNone))

/-! ## Generic fold lemmas -/

theorem foldl_append_replicate (value : String → ℚ) (comp : Comp)
    (acc : List ℚ) :
    comp.foldl (fun m e => m ++ List.replicate (pyInt e.2) (value e.1)) acc
      = acc ++ expandPerAtom value comp := by
  induction comp generalizing acc with
  | nil => simp [expandPerAtom]
  | cons e rest ih =>
      simp only [List.foldl_cons, expandPerAtom, List.flatMap_cons]
      rw [ih]
      simp [expandPerAtom, List.append_assoc]

theorem length_expandPerAtom (value : String → ℚ) (comp : Comp) :
    (expandPerAtom value comp).length
      = (comp.map (fun e => pyInt e.2)).sum := by
  induction comp with
  | nil => rfl
  | cons e rest ih =>
      simp only [expandPerAtom, List.flatMap_cons, List.length_append,
        List.length_replicate, List.map_cons, List.sum_cons] at ih ⊢
      rw [ih]


theorem foldl_mul_eq_prod : ∀ (xs : List ℝ) (a : ℝ),
    xs.foldl (fun x y => x * y) a = a * xs.prod
  | [], a => by simp
  | x :: xs, a => by
      rw [List.foldl_cons, foldl_mul_eq_prod xs (a * x), List.prod_cons,
        mul_assoc]

theorem foldl_add_eq_sum {α : Type} (f : α → ℝ) :
    ∀ (l : List α) (a : ℝ),
      l.foldl (fun t v => t + f v) a = a + (l.map f).sum
  | [], a => by simp
  | x :: xs, a => by
      rw [List.foldl_cons, foldl_add_eq_sum f xs (a + f x), List.map_cons,
        List.sum_cons, add_assoc]

theorem foldl_add_eq_sum_q {α : Type} (f : α → ℚ) :
    ∀ (l : List α) (a : ℚ),
      l.foldl (fun t v => t + f v) a = a + (l.map f).sum
  | [], a => by simp
  | x :: xs, a => by
      rw [List.foldl_cons, foldl_add_eq_sum_q f xs (a + f x), List.map_cons,
        List.sum_cons, add_assoc]

/-! ## Claims -/

/-- Claim C1: the specification says `get_frac_weighted_mean` returns the
scalar `sum(atomic_fraction(e) * per_element_values[e] for e in
composition)`, but the code builds `el_amt` and returns that dictionary at
once, never touching `data_lst`.  Evaluated at the failing input
`NaCl` with per-element values `Na = 2, Cl = 4`: the specified weighted
mean is `3`, while the code returns the element-amount mapping
`[("Na", 1), ("Cl", 1)]` (not a scalar at all). -/
theorem frac_weighted_mean_bug_eval :
    get_frac_weighted_mean [("Na", 1), ("Cl", 1)]
        (fun el => if el = "Na" then 2 else 4) = [("Na", 1), ("Cl", 1)] ∧
    specFracWeightedMean [("Na", 1), ("Cl", 1)]
        (fun el => if el = "Na" then 2 else 4) = 3 := by
  constructor
  · rfl
  · simp [specFracWeightedMean, atomicFraction, amountOf, totalAtoms]
    norm_num

/-- Claim C2: the specification requires the ionic-character computation
not to raise on a single-element composition; the code instead reaches
`np.max(ionic_char)` with `ionic_char == []`, which raises `ValueError`
(modelled as `none`): the empty reduction is not handled. -/
theorem ionic_attributes_single_element (comp : Comp) (en : String → ℝ)
    (h : comp.length = 1) : get_ionic_attributes comp en = none := by
  obtain ⟨e, rfl⟩ : ∃ e, comp = [e] := by
    cases comp with
    | nil => simp at h
    | cons x xs =>
        cases xs with
        | nil => exact ⟨x, rfl⟩
        | cons y ys => simp at h
  rfl

/-- Witness for C2: the single-element composition `Fe` makes
`get_ionic_attributes` fail on the empty `np.max` reduction. -/
theorem ionic_attributes_single_element_witness :
    get_ionic_attributes [("Fe", 2)] (fun _ => 0) = none :=
  ionic_attributes_single_element [("Fe", 2)] (fun _ => 0) rfl

/-- Claim C5: for every non-empty positive-value sequence,
`get_holder_mean` with power 0 is the geometric mean (the product of all
values raised to `1 / n`), and with power `p != 0` it is
`(mean(v ** p)) ** (1 / p)`. -/
theorem holder_mean_spec (l : List ℝ) (h1 : l ≠ [])
    (h2 : ∀ x ∈ l, 0 < x) :
    get_holder_mean l 0 = some (l.prod ^ ((1 : ℝ) / l.length)) ∧
    ∀ p : ℝ, p ≠ 0 →
      get_holder_mean l p
        = some (((l.map (fun v => v ^ p)).sum / l.length) ^ ((1 : ℝ) / p)) := by
  obtain ⟨x, xs, rfl⟩ : ∃ x xs, l = x :: xs := by
    cases l with
    | nil => exact absurd rfl h1
    | cons x xs => exact ⟨x, xs, rfl⟩
  constructor
  · rw [get_holder_mean, if_pos rfl, geomean, foldl_mul_eq_prod,
      List.prod_cons]
    exact fun h => List.noConfusion h
  · intro p hp
    rw [get_holder_mean, if_neg hp]
    rw [foldl_add_eq_sum (fun v => v ^ p) (x :: xs) 0, zero_add]
    exact fun h => List.noConfusion h

/-- Witness for C5: `holder_mean([1,2,3,4], 0)` is
`(1*2*3*4) ** 0.25 = 24 ** (1/4)` (about 2.2134). -/
theorem holder_mean_spec_witness :
    get_holder_mean [1, 2, 3, 4] 0 = some ((24 : ℝ) ^ ((1 : ℝ) / 4)) := by
  have h := holder_mean_spec [1, 2, 3, 4] (by simp) (by norm_num)
  rw [h.1]
  norm_num

/-- Claim C6: `get_stoich_attributes(C, 0)` is the total atom count, and
for `p != 0` it is the `1/p` power of the sum of the `p`-th powers of the
atomic fractions. -/
theorem stoich_attributes_spec (comp : Comp) (_h1 : comp ≠ [])
    (_h2 : ∀ e ∈ comp, 0 < e.2) :
    get_stoich_attributes comp 0 = ((totalAtoms comp : ℚ) : ℝ) ∧
    ∀ p : ℝ, p ≠ 0 →
      get_stoich_attributes comp p
        = ((comp.map
            (fun e => ((e.2 / totalAtoms comp : ℚ) : ℝ) ^ p)).sum)
            ^ ((1 : ℝ) / p) := by
  constructor
  · rw [get_stoich_attributes, if_pos rfl]
  · intro p hp
    rw [get_stoich_attributes]
    simp only [if_neg hp]
    rw [foldl_add_eq_sum (fun e => ((e.2 / totalAtoms comp : ℚ) : ℝ) ^ p)
      comp 0, zero_add]

/-- Witness for C6: `get_stoich_attributes("Fe2O3", 3)` equals
`(0.4 ** 3 + 0.6 ** 3) ** (1/3)` (about 0.6595). -/
theorem stoich_attributes_spec_witness :
    get_stoich_attributes [("Fe", 2), ("O", 3)] 3
      = (((2 / 5 : ℝ) ^ (3 : ℝ) + (3 / 5 : ℝ) ^ (3 : ℝ)) ^ ((1 : ℝ) / 3)) := by
  have h := stoich_attributes_spec [("Fe", 2), ("O", 3)] (by simp)
    (by norm_num)
  rw [h.2 3 (by norm_num)]
  norm_num [totalAtoms]

/-- Claim C7: for a catalogued property name, `get_magpie_descriptor`
returns (without raising) the per-atom expansion: each element's tabulated
value repeated `floor(amount)` times in composition iteration order, so
its length is the sum of the truncated amounts. -/
theorem magpie_descriptor_expand_spec (catalog : List String)
    (value : String → ℚ) (comp : Comp) (descriptor_name : String)
    (h : descriptor_name ∈ catalog) :
    get_magpie_descriptor catalog value comp descriptor_name
        = Except.ok (expandPerAtom value comp) ∧
    (expandPerAtom value comp).length
        = (comp.map (fun e => pyInt e.2)).sum := by
  refine ⟨?_, length_expandPerAtom value comp⟩
  rw [get_magpie_descriptor, if_pos h, foldl_append_replicate]
  rw [List.nil_append]

/-- Witness for C7: `NaCl` with a constant table value 12 expands to one
value per atom, two values in total. -/
theorem magpie_descriptor_expand_spec_witness :
    get_magpie_descriptor ["AtomicWeight"] (fun _ => (12 : ℚ))
        [("Na", 1), ("Cl", 1)] "AtomicWeight" = Except.ok [12, 12] ∧
    ((2 : ℕ) = ([("Na", 1), ("Cl", 1)].map
        (fun e => pyInt e.2)).sum) := by
  have h := magpie_descriptor_expand_spec ["AtomicWeight"]
    (fun _ => (12 : ℚ)) [("Na", 1), ("Cl", 1)] "AtomicWeight" (by simp)
  constructor
  · rw [h.1]; rfl
  · decide

/-! ## Helper lemmas for get_pymatgen_descriptor -/

theorem gpdLoop_ok (attr : String → String → Option (Option ℚ))
    (unitOf : String → String → Option String) (prop : String) :
    ∀ comp : Comp,
      (∀ el amt, (el, amt) ∈ comp → ∃ o, attr el prop = some o) →
      ∃ pr, gpdLoop attr unitOf prop comp = Except.ok pr ∧
        ∀ el amt, (el, amt) ∈ comp → attr el prop = some none →
          (⟨el, prop, none, none, amt⟩ : ElDataTup) ∈ pr.1
  | [], _ => ⟨([], []), rfl, by simp⟩
  | (el, amt) :: rest, h => by
      obtain ⟨o, ho⟩ := h el amt (List.mem_cons_self _ _)
      obtain ⟨pr, hpr, hmem⟩ := gpdLoop_ok attr unitOf prop rest
        (fun el2 amt2 hm => h el2 amt2 (List.mem_cons_of_mem _ hm))
      cases o with
      | none =>
          refine ⟨(⟨el, prop, none, none, amt⟩ :: pr.1, pr.2), ?_, ?_⟩
          · rw [gpdLoop, ho, hpr]
          · intro el2 amt2 hm hattr
            rcases List.mem_cons.mp hm with heq | hm2
            · rw [Prod.mk.injEq] at heq
              rw [heq.1, heq.2]
              exact List.mem_cons_self _ _
            · exact List.mem_cons_of_mem _ (hmem el2 amt2 hm2 hattr)
      | some v =>
          refine ⟨(⟨el, prop, some v,
              if prop ∈ unitlessProps then none else unitOf el prop, amt⟩
                :: pr.1,
              List.replicate (pyInt amt) v ++ pr.2), ?_, ?_⟩
          · rw [gpdLoop, ho, hpr]
          · intro el2 amt2 hm hattr
            rcases List.mem_cons.mp hm with heq | hm2
            · rw [Prod.mk.injEq] at heq
              rw [heq.1] at hattr
              rw [ho] at hattr
              exact absurd (Option.some.inj hattr) (by simp)
            · exact List.mem_cons_of_mem _ (hmem el2 amt2 hm2 hattr)

/-- Claim C3: a wholly invalid attribute name (none of the elements has
it, so the first `getattr` raises) makes `get_pymatgen_descriptor` fail
with an invalid-attribute error, while an attribute that every element
possesses but which is `None` for some element does not raise: the loop
completes, and the undefined element is recorded in `eldata_tup_lst` with
`propvalue = None`. -/
theorem pymatgen_descriptor_error_spec
    (attr : String → String → Option (Option ℚ))
    (unitOf : String → String → Option String) (comp : Comp)
    (prop : String) (hne : comp ≠ []) :
    ((∀ el amt, (el, amt) ∈ comp → attr el prop = none) →
      get_pymatgen_descriptor attr unitOf comp prop
        = Except.error "AttributeError") ∧
    ((∀ el amt, (el, amt) ∈ comp → ∃ o, attr el prop = some o) →
      ∃ pr, gpdLoop attr unitOf prop comp = Except.ok pr ∧
        get_pymatgen_descriptor attr unitOf comp prop = Except.ok pr.2 ∧
        ∀ el amt, (el, amt) ∈ comp → attr el prop = some none →
          (⟨el, prop, none, none, amt⟩ : ElDataTup) ∈ pr.1) := by
  constructor
  · intro h
    obtain ⟨el, amt, rest, rfl⟩ : ∃ el amt rest, comp = (el, amt) :: rest := by
      cases comp with
      | nil => exact absurd rfl hne
      | cons e rest => exact ⟨e.1, e.2, rest, rfl⟩
    have hh := h el amt (List.mem_cons_self _ _)
    rw [get_pymatgen_descriptor, gpdLoop, hh]
    rfl
  · intro h
    obtain ⟨pr, hpr, hmem⟩ := gpdLoop_ok attr unitOf prop comp h
    exact ⟨pr, hpr, by rw [get_pymatgen_descriptor, hpr]; rfl, hmem⟩

/-- Witness for C3: on the one-element composition `Na`, an attribute no
element has makes the reader raise the invalid-attribute error. -/
theorem pymatgen_descriptor_error_spec_witness :
    get_pymatgen_descriptor (fun _ _ => none) (fun _ _ => none)
        [("Na", 1)] "bogus" = Except.error "AttributeError" :=
  (pymatgen_descriptor_error_spec (fun _ _ => none) (fun _ _ => none)
    [("Na", 1)] "bogus" (by simp)).1 (fun _ _ _ => rfl)

/-! ## Helper lemmas for get_valence_orbital_attributes -/

theorem valenceSums_fst_aux (comp : Comp) (tab : String → String → ℚ) :
    ∀ (l : Comp) (init : ℚ × ℚ × ℚ × ℚ × ℚ),
      (l.foldl (valenceStep comp tab) init).1
        = init.1 + (l.map
            (fun e => atomicFraction comp e.1 * tab "NValance" e.1)).sum
  | [], init => by simp
  | e :: rest, init => by
      rw [List.foldl_cons, valenceSums_fst_aux comp tab rest _,
        List.map_cons, List.sum_cons]
      show (valenceStep comp tab init e).1 + _ = _
      rw [valenceStep]
      ring

/-- Claim C8: a composition whose fraction-weighted total valence electron
count is zero makes `get_valence_orbital_attributes` fail with a
zero-denominator error instead of returning a numeric quadruple. -/
theorem valence_orbital_zero_total_error (comp : Comp)
    (tab : String → String → ℚ)
    (h : specWeightedTotalValence comp tab = 0) :
    get_valence_orbital_attributes comp tab
      = Except.error "ZeroDivisionError" := by
  have hfst : (valenceSums comp tab).1 = 0 := by
    rw [valenceSums, valenceSums_fst_aux]
    rw [specWeightedTotalValence] at h
    rw [h]
    ring
  rw [get_valence_orbital_attributes]
  simp only [hfst]
  rfl

/-- Witness for C8: a noble-gas-only composition whose tabulated valence
counts are all zero. -/
theorem valence_orbital_zero_total_error_witness :
    get_valence_orbital_attributes [("He", 1)] (fun _ _ => 0)
      = Except.error "ZeroDivisionError" :=
  valence_orbital_zero_total_error [("He", 1)] (fun _ _ => 0)
    (by simp [specWeightedTotalValence])

/-! ## Helper lemmas for flatten_dict -/

theorem dSet_not_mem (d : List (String × PyVal)) (k : String) (v : PyVal)
    (h : ∀ p ∈ d, p.1 ≠ k) : dSet d k v = d ++ [(k, v)] := by
  rw [dSet, if_neg]
  intro hc
  rw [List.any_eq_true] at hc
  obtain ⟨p, hp, hpk⟩ := hc
  exact h p hp (by simpa using hpk)

theorem mem_dSet (d : List (String × PyVal)) (k : String) (v : PyVal) :
    ∀ p ∈ dSet d k v, p ∈ d ∨ p = (k, v) := by
  intro p hp
  rw [dSet] at hp
  split at hp
  · obtain ⟨q, hq, hpq⟩ := List.mem_map.mp hp
    by_cases hqk : q.1 = k
    · rw [if_pos hqk] at hpq
      right; exact hpq.symm
    · rw [if_neg hqk] at hpq
      left; exact hpq ▸ hq
  · rcases List.mem_append.mp hp with h | h
    · left; exact h
    · right; simpa using h

theorem mem_dMerge :
    ∀ (e d : List (String × PyVal)), ∀ p ∈ dMerge d e, p ∈ d ∨ p ∈ e
  | [], _, _, hp => Or.inl hp
  | q :: rest, d, p, hp => by
      rw [dMerge, List.foldl_cons] at hp
      rcases mem_dMerge rest (dSet d q.1 q.2) p hp with h | h
      · rcases mem_dSet d q.1 q.2 p h with h2 | h2
        · exact Or.inl h2
        · right; rw [h2]; exact List.mem_cons_self _ _
      · exact Or.inr (List.mem_cons_of_mem _ h)

mutual

theorem flattenDictGo_values :
    ∀ (acc d : List (String × PyVal)) (lead : Option String) (u : Bool),
      (∀ p ∈ acc, p.2.isDict = false) →
      ∀ p ∈ flattenDictGo acc d lead u, p.2.isDict = false
  | acc, [], lead, u, hacc => by
      rw [flattenDictGo]; exact hacc
  | acc, (key, value) :: rest, lead, u, hacc => by
      rw [flattenDictGo]
      exact flattenDictGo_values _ rest lead u
        (flattenStep_values acc _ value u hacc)

theorem flattenStep_values :
    ∀ (acc : List (String × PyVal)) (fk : String) (value : PyVal)
      (u : Bool),
      (∀ p ∈ acc, p.2.isDict = false) →
      ∀ p ∈ flattenStep acc fk value u, p.2.isDict = false
  | acc, fk, .leaf q, u, hacc => by
      rw [flattenStep]
      intro p hp
      rcases mem_dSet acc fk (.leaf q) p hp with h | h
      · exact hacc p h
      · rw [h]; rfl
  | acc, fk, .dict d, u, hacc => by
      rw [flattenStep]
      intro p hp
      rcases mem_dMerge _ acc p hp with h | h
      · exact hacc p h
      · exact flattenDictGo_values [] d (some fk) u (by simp) p h
  | acc, fk, .arr l, u, hacc => by
      rw [flattenStep]
      split
      · intro p hp
        rcases mem_dMerge _ acc p hp with h | h
        · exact hacc p h
        · exact flattenArrGo_values [] fk 0 l u (by simp) p h
      · intro p hp
        rcases mem_dSet acc fk (.arr l) p hp with h | h
        · exact hacc p h
        · rw [h]; rfl

theorem flattenArrGo_values :
    ∀ (acc : List (String × PyVal)) (lead : String) (i : ℕ)
      (l : List PyVal) (u : Bool),
      (∀ p ∈ acc, p.2.isDict = false) →
      ∀ p ∈ flattenArrGo acc lead i l u, p.2.isDict = false
  | acc, lead, i, [], u, hacc => by
      rw [flattenArrGo]; exact hacc
  | acc, lead, i, v :: rest, u, hacc => by
      rw [flattenArrGo]
      exact flattenArrGo_values _ lead (i + 1) rest u
        (flattenStep_values acc _ v u hacc)

end

theorem flattenDictGo_flat :
    ∀ (d acc : List (String × PyVal)) (u : Bool),
      (∀ p ∈ d, ∃ q, p.2 = PyVal.leaf q) →
      (∀ p ∈ d, ∀ p2 ∈ acc, p.1 ≠ p2.1) →
      (d.map (fun p => p.1)).Nodup →
      flattenDictGo acc d none u = acc ++ d
  | [], acc, u, _, _, _ => by rw [flattenDictGo, List.append_nil]
  | (key, value) :: rest, acc, u, hleaf, hdisj, hnodup => by
      obtain ⟨q, hq⟩ := hleaf (key, value) (List.mem_cons_self _ _)
      simp only at hq
      subst hq
      rw [flattenDictGo]
      have hstep : flattenStep acc (flatKey none key) (PyVal.leaf q) u
          = acc ++ [(key, PyVal.leaf q)] := by
        simp only [flatKey]
        rw [flattenStep]
        exact dSet_not_mem acc key (PyVal.leaf q)
          (fun p2 hp2 =>
            (hdisj (key, PyVal.leaf q) (List.mem_cons_self _ _) p2 hp2).symm)
      rw [List.map_cons, List.nodup_cons] at hnodup
      rw [hstep, flattenDictGo_flat rest (acc ++ [(key, PyVal.leaf q)]) u
        (fun p hp => hleaf p (List.mem_cons_of_mem _ hp))
        (fun p hp p2 hp2 => by
          rcases List.mem_append.mp hp2 with h2 | h2
          · exact hdisj p (List.mem_cons_of_mem _ hp) p2 h2
          · have : p2 = (key, PyVal.leaf q) := by simpa using h2
            rw [this]
            intro hcontra
            exact hnodup.1 (hcontra ▸ List.mem_map_of_mem _ hp))
        hnodup.2]
      rw [List.append_assoc]
      rfl

/-- Claim C9: on an already-flat dictionary (no value is a dict or a
list/tuple) with distinct keys, `flatten_dict` with no `lead_key` is the
identity; and on any input, no value of the result is itself a
dictionary. -/
theorem flatten_dict_spec (d : List (String × PyVal)) (u : Bool)
    (hleaf : ∀ p ∈ d, ∃ q, p.2 = PyVal.leaf q)
    (hnodup : (d.map (fun p => p.1)).Nodup) :
    flatten_dict d none u = d ∧
    ∀ (d2 : List (String × PyVal)) (lead : Option String) (u2 : Bool),
      ∀ p ∈ flatten_dict d2 lead u2, p.2.isDict = false := by
  constructor
  · rw [flatten_dict]
    simpa using flattenDictGo_flat d [] u hleaf (by simp) hnodup
  · intro d2 lead u2
    rw [flatten_dict]
    exact flattenDictGo_values [] d2 lead u2 (by simp)

/-- Witness for C9: a two-key flat dictionary maps to itself. -/
theorem flatten_dict_spec_witness :
    flatten_dict [("a", PyVal.leaf 1), ("b", PyVal.leaf 2)] none true
      = [("a", PyVal.leaf 1), ("b", PyVal.leaf 2)] := by
  have h := flatten_dict_spec [("a", PyVal.leaf 1), ("b", PyVal.leaf 2)]
    true ?hl ?hn
  · exact h.1
  case hl =>
    intro p hp
    rcases List.mem_cons.mp hp with rfl | hp2
    · exact ⟨1, rfl⟩
    · rcases List.mem_cons.mp hp2 with rfl | h3
      · exact ⟨2, rfl⟩
      · cases h3
  case hn => simp

/-- Claim C10: `has_oxidation_states` is `True` exactly when every element
of the composition carries an `oxi_state` attribute whose value is not
`None`; being a pure fold over `comp.elements` it neither raises nor
mutates the composition. -/
theorem has_oxidation_states_iff (comp : PmgComposition) :
    has_oxidation_states comp = true ↔
      ∀ el ∈ comp.elements, ∃ v, el.oxi_state = some (some v) := by
  rw [has_oxidation_states, Bool.not_eq_true', List.any_eq_false]
  constructor
  · intro h el hel
    have hf := h el hel
    cases hox : el.oxi_state with
    | none => rw [hox] at hf; simp at hf
    | some v =>
        cases v with
        | none => rw [hox] at hf; simp at hf
        | some q => exact ⟨q, rfl⟩
  · intro h el hel
    obtain ⟨v, hv⟩ := h el hel
    rw [hv]
    simp

/-! ## Helper lemmas for the mode statistic -/

theorem mem_scanDedup : ∀ (l : List ℚ) (a : ℚ), a ∈ scanDedup l ↔ a ∈ l
  | [], _ => Iff.rfl
  | x :: xs, a => by
      rw [scanDedup]
      constructor
      · intro h
        rcases List.mem_cons.mp h with rfl | h2
        · exact List.mem_cons_self _ _
        · exact List.mem_cons_of_mem _
            ((mem_scanDedup xs a).mp (List.mem_of_mem_filter h2))
      · intro h
        rcases List.mem_cons.mp h with rfl | h2
        · exact List.mem_cons_self _ _
        · by_cases hax : a = x
          · rw [hax]; exact List.mem_cons_self _ _
          · refine List.mem_cons_of_mem _ (List.mem_filter.mpr
              ⟨(mem_scanDedup xs a).mpr h2, ?_⟩)
            simpa using hax

theorem mem_slotInsert (x a : ℚ) :
    ∀ l : List ℚ, a ∈ slotInsert x l ↔ a = x ∨ a ∈ l
  | [] => by rw [slotInsert]; simp
  | y :: ys => by
      rw [slotInsert]
      by_cases h : pySlot x < pySlot y
      · rw [if_pos h, List.mem_cons]
      · rw [if_neg h, List.mem_cons, mem_slotInsert x a ys, List.mem_cons]
        tauto

theorem mem_foldr_slotInsert (a : ℚ) :
    ∀ L : List ℚ, a ∈ L.foldr slotInsert [] ↔ a ∈ L
  | [] => Iff.rfl
  | x :: xs => by
      rw [List.foldr_cons, mem_slotInsert, mem_foldr_slotInsert a xs,
        List.mem_cons]

theorem mem_pySet (l : List ℚ) (a : ℚ) : a ∈ pySet l ↔ a ∈ l := by
  rw [pySet]
  exact (mem_foldr_slotInsert a (scanDedup l)).trans (mem_scanDedup l a)

theorem foldl_pickMax_mem (key : ℚ → ℕ) :
    ∀ (xs : List ℚ) (b : ℚ),
      xs.foldl (pickMax key) b = b ∨ xs.foldl (pickMax key) b ∈ xs
  | [], _ => Or.inl rfl
  | a :: t, b => by
      rw [List.foldl_cons]
      rcases foldl_pickMax_mem key t (pickMax key b a) with h | h
      · rw [h, pickMax]
        by_cases hba : key b < key a
        · rw [if_pos hba]
          exact Or.inr (List.mem_cons_self _ _)
        · rw [if_neg hba]
          exact Or.inl rfl
      · exact Or.inr (List.mem_cons_of_mem _ h)

theorem foldl_pickMax_key_le (key : ℚ → ℕ) :
    ∀ (xs : List ℚ) (b : ℚ),
      key b ≤ key (xs.foldl (pickMax key) b) ∧
      ∀ a ∈ xs, key a ≤ key (xs.foldl (pickMax key) b)
  | [], b => ⟨le_refl _, by simp⟩
  | a :: t, b => by
      rw [List.foldl_cons]
      obtain ⟨h1, h2⟩ := foldl_pickMax_key_le key t (pickMax key b a)
      have hbase : key b ≤ key (pickMax key b a) := by
        rw [pickMax]
        by_cases hba : key b < key a
        · rw [if_pos hba]; exact le_of_lt hba
        · rw [if_neg hba]
      have hstep : key a ≤ key (pickMax key b a) := by
        rw [pickMax]
        by_cases hba : key b < key a
        · rw [if_pos hba]
        · rw [if_neg hba]; exact Nat.le_of_not_lt hba
      refine ⟨le_trans hbase h1, fun c hc => ?_⟩
      rcases List.mem_cons.mp hc with rfl | hct
      · exact le_trans hstep h1
      · exact h2 c hct

/-- Claim C4 counterexample: for the value sequence `[2, 1, 1, 2]` the
values 1 and 2 are tied for the highest count, the value encountered first
during a stable scan is 2, yet `max(set(data_lst), key=data_lst.count)`
returns 1 (the set iterates in hash order, not scan order), so the mode is
not tie-broken by first encounter.  The final conjunct checks the slot
model against the independently observed `max(set([11.0, 17.0]),
key=count) == 17.0` (the `Number` descriptor column of NaCl), where the
hash order is not even ascending. -/
theorem summary_mode_counterexample :
    summaryMode [2, 1, 1, 2] = some 1 ∧
    specStableScanMode [2, 1, 1, 2] = some 2 ∧
    ([2, 1, 1, 2] : List ℚ).count 1 = ([2, 1, 1, 2] : List ℚ).count 2 ∧
    (1 : ℚ) ≠ 2 ∧
    summaryMode [11, 17] = some 17 := by
  refine ⟨by decide, by decide, by decide, by norm_num, by decide⟩

/-- Claim C4 (amended): the mode reported for a non-empty value sequence
is a value of the sequence attaining the maximal count; ties are broken by
the iteration order of `set(data_lst)` — deterministic for a given input
but implementation-defined (hash-table slot order), and not in general the
value encountered first during a stable scan of the sequence. -/
theorem summary_mode_amended (l : List ℚ) (h : l ≠ []) :
    ∃ m, summaryMode l = some m ∧ m ∈ l ∧
      ∀ x ∈ l, l.count x ≤ l.count m := by
  obtain ⟨x, xs, hxl⟩ : ∃ x xs, pySet l = x :: xs := by
    obtain ⟨y, ys, rfl⟩ : ∃ y ys, l = y :: ys := by
      cases l with
      | nil => exact absurd rfl h
      | cons y ys => exact ⟨y, ys, rfl⟩
    have hy : y ∈ pySet (y :: ys) :=
      (mem_pySet _ y).mpr (List.mem_cons_self _ _)
    cases hps : pySet (y :: ys) with
    | nil => rw [hps] at hy; cases hy
    | cons x xs => exact ⟨x, xs, rfl⟩
  refine ⟨xs.foldl (pickMax (fun v => l.count v)) x, ?_, ?_, ?_⟩
  · rw [summaryMode, hxl, pyMaxKey]
  · have hmem := foldl_pickMax_mem (fun v => l.count v) xs x
    rcases hmem with heq | hmem2
    · rw [heq, ← mem_pySet, hxl]
      exact List.mem_cons_self _ _
    · rw [← mem_pySet, hxl]
      exact List.mem_cons_of_mem _ hmem2
  · intro c hc
    have hcps : c ∈ pySet l := (mem_pySet l c).mpr hc
    rw [hxl] at hcps
    obtain ⟨h1, h2⟩ := foldl_pickMax_key_le (fun v => l.count v) xs x
    rcases List.mem_cons.mp hcps with rfl | hct
    · exact h1
    · exact h2 c hct

/-- Witness for the amended C4: at `[2, 1, 1, 2]` the reported mode 1 is
a value of the sequence with the maximal count. -/
theorem summary_mode_amended_witness :
    ∃ m, summaryMode [2, 1, 1, 2] = some m ∧ m ∈ ([2, 1, 1, 2] : List ℚ) ∧
      ∀ x ∈ ([2, 1, 1, 2] : List ℚ),
        ([2, 1, 1, 2] : List ℚ).count x ≤ ([2, 1, 1, 2] : List ℚ).count m :=
  summary_mode_amended [2, 1, 1, 2] (by simp)

end Matminer
